import Mathlib

/-
Verification of the zk zettelkasten core (src/zk/zettel.py, src/zk/main.py).

Text is modelled as lists of characters; the embedding covers the ASCII
fragment of Python str, which is the charset the identifier and metadata
patterns and all claims exercise. Machine regular expressions are embedded
by their operational behaviour on the concrete patterns the code holds,
including the Python re semantics of "$" matching just before a single
trailing newline and of "." not matching a newline. Fallible operations
(raising ValueError or ShellError) return Except values.
-/

abbrev Str := List Char

def strOf (s : String) : Str := s.data

/-- wordChar models the regex class element backslash-w over ASCII:
letters, digits and the underscore. -/
def wordChar (c : Char) : Bool := c.isAlphanum || c = '_'

/-- idChar models the character class of word character or hyphen used by
ZETTEL_VALID_ID_PATTERN and the key group of ZETTEL_METADATA_PATTERN
(zettel.py lines 17-18). -/
def idChar (c : Char) : Bool := wordChar c || c = '-'

/-- isSpaceChar models the default whitespace of Python str.strip over
ASCII: space, tab, newline, carriage return, vertical tab, form feed,
and the separator controls x1c through x1f (all str.isspace-true). -/
def isSpaceChar (c : Char) : Bool :=
  c = ' ' || c = '\t' || c = '\n' || c = '\r' || c = '\x0b' || c = '\x0c'
    || c = '\x1c' || c = '\x1d' || c = '\x1e' || c = '\x1f'

/-- strip models Python str.strip (no argument): drop whitespace from both ends. -/
def strip (s : Str) : Str :=
  ((s.dropWhile isSpaceChar).reverse.dropWhile isSpaceChar).reverse

/-- validIdMatch models the truthiness of re.match applied to
ZETTEL_VALID_ID_PATTERN (caret, one or more word-or-hyphen characters,
dollar) on s. Python re "$" also matches just before one trailing
newline at the end of the string. -/
def validIdMatch (s : Str) : Bool :=
  let core := if s.getLast? = some '\n' then s.dropLast else s
  !core.isEmpty && core.all idChar

/-- matchMetadata models re.match of ZETTEL_METADATA_PATTERN (caret, a
captured nonempty word-or-hyphen run, a colon, a captured dot-star,
dollar) on one line, returning the two capture groups. "$" matches
before a single trailing newline; "." does not match a newline, so a
line with an interior newline cannot match. -/
def matchMetadata (line : Str) : Option (Str × Str) :=
  let core := if line.getLast? = some '\n' then line.dropLast else line
  if '\n' ∈ core then none
  else
    let key := core.takeWhile idChar
    let rest := core.dropWhile idChar
    if key.isEmpty then none
    else
      match rest with
      | [] => none
      | c :: value => if c = ':' then some (key, value) else none

/-- A Python dict from str to str: an insertion-ordered association list
whose keys are unique (all updates go through dinsert). -/
abbrev Dict := List (Str × Str)

def dlookup (k : Str) : Dict → Option Str
  | [] => none
  | p :: rest => if p.1 = k then some p.2 else dlookup k rest

/-- dinsert models Python dict assignment: update in place when the key is
present (keeping its position), else append at the end. -/
def dinsert (d : Dict) (k v : Str) : Dict :=
  match d with
  | [] => [(k, v)]
  | p :: rest => if p.1 = k then (k, v) :: rest else p :: dinsert rest k v

/-- derase models Python del on a dict key (the code only deletes keys it
has just looked up, so the present-key case is the one exercised). -/
def derase : Dict → Str → Dict
  | [], _ => []
  | p :: rest, k => if p.1 = k then derase rest k else p :: derase rest k

/-- The in-memory note: Zettel with id, title, metadata and content lines. -/
structure Zettel where
  id : Str
  title : Str
  metadata : Dict
  content : List Str
deriving DecidableEq

def invalidIdMsg : Str := strOf "ValueError: Invalid ID for zettel"

/-- zettelNew models Zettel.init (zettel.py lines 32-43): the id setter
validates against ZETTEL_VALID_ID_PATTERN and raises ValueError on
failure; "title or self.id" makes both None and the empty string fall
back to the id; metadata and content default to fresh empty containers
(an explicitly passed empty dict or list is falsy and gives the same
empty value). -/
def zettelNew (id : Str) (title : Option Str) (metadata : Option Dict)
    (content : Option (List Str)) : Except Str Zettel :=
  if validIdMatch id then
    .ok { id := id
        , title := match title with
                   | none => id
                   | some t => if t.isEmpty then id else t
        , metadata := metadata.getD []
        , content := content.getD [] }
  else .error invalidIdMsg

def titleKey : Str := strOf "title"

/-- One step of the metadata loop of Zettel.load_from_file (lines 69-74):
a matching line strips both captured groups into the dict. -/
def metaStep (d : Dict) (l : Str) : Dict :=
  match matchMetadata l with
  | none => d
  | some kv => dinsert d (strip kv.1) (strip kv.2)

/-- parseMetaLoop models the two loops of Zettel.load_from_file (zettel.py
lines 69-77): leading lines matching the metadata pattern go into the
dict; the first non-matching line and everything after it become content
verbatim. -/
def parseMetaLoop (md : Dict) : List Str → Dict × List Str
  | [] => (md, [])
  | l :: rest =>
    match matchMetadata l with
    | none => (md, l :: rest)
    | some kv => parseMetaLoop (dinsert md (strip kv.1) (strip kv.2)) rest

/-- decodeLines models Zettel.load_from_file (zettel.py lines 61-85) given
the file already split into lines and the id derived from the path stem:
validate the id, parse the metadata, pull the reserved title key out
of the metadata, and build the Zettel through the constructor. -/
def decodeLines (inferredId : Str) (lines : List Str) : Except Str Zettel :=
  if validIdMatch inferredId then
    let mc := parseMetaLoop [] lines
    match dlookup titleKey mc.1 with
    | none => zettelNew inferredId (some inferredId) (some mc.1) (some mc.2)
    | some t => zettelNew inferredId (some t) (some (derase mc.1 titleKey)) (some mc.2)
  else .error (strOf "ValueError: Path stem is not a valid zettel id")

def splitLinesAux (acc : Str) : Str → List Str
  | [] => if acc.isEmpty then [] else [acc.reverse]
  | c :: rest =>
    if c = '\n' then (acc.reverse ++ ['\n']) :: splitLinesAux [] rest
    else splitLinesAux (c :: acc) rest

/-- splitLines models Python text-file line iteration over the decoded
text stream (universal-newline translation already applied): each line
keeps its trailing newline; a final fragment without a newline is its
own line. -/
def splitLines (s : Str) : List Str := splitLinesAux [] s

/-- translateNewlines models the universal-newline translation Python
text-mode reading applies to the on-disk bytes: a carriage return
followed by a newline, and a lone carriage return, each become one
newline. -/
def translateNewlines : Str → Str
  | [] => []
  | [c] => if c = '\r' then ['\n'] else [c]
  | c :: d :: rest =>
    if c = '\r' then
      if d = '\n' then '\n' :: translateNewlines rest
      else '\n' :: translateNewlines (d :: rest)
    else c :: translateNewlines (d :: rest)

/-- decodeText: the whole of Zettel.load_from_file on raw on-disk file
text: the text-mode read translates newlines universally, the stream is
iterated line by line, and the lines are parsed. -/
def decodeText (inferredId : Str) (raw : Str) : Except Str Zettel :=
  decodeLines inferredId (splitLines (translateNewlines raw))

/-- metaLine: one line printed by save_to_file line 92: key, colon, space,
value, newline. -/
def metaLine (p : Str × Str) : Str := p.1 ++ ':' :: ' ' :: (p.2 ++ ['\n'])

/-- mergedMeta models the dict display of save_to_file line 88: a dict
starting from the title entry, then each metadata entry inserted with
Python dict update semantics, so a metadata entry keyed "title"
overwrites the value at position zero. -/
def mergedMeta (z : Zettel) : Dict :=
  z.metadata.foldl (fun d p => dinsert d p.1 p.2) [(titleKey, z.title)]

/-- encodeZ models Zettel.save_to_file (zettel.py lines 87-94): the merged
metadata printed one line per entry in mapping order, then the content
lines written verbatim. The text-mode write translates a newline to
os.linesep, which is the newline itself on the POSIX platforms the tool
targets, so writing is the identity on the text. -/
def encodeZ (z : Zettel) : Str :=
  ((mergedMeta z).map metaLine).flatten ++ z.content.flatten

deriving instance DecidableEq for Except

/-- A file system as a finite map from path to file text, with the same
association-list representation as Dict (paths are unique keys). -/
abbrev FSys := List (Str × Str)

/-- A note store: Zettelkasten rooted at a directory (zettel.py line 117). -/
structure Store where
  location : Str

/-- pathFor models Zettelkasten.path_for_zettel_id (line 129-130):
location slash id dot md. -/
def pathFor (st : Store) (id : Str) : Str :=
  st.location ++ '/' :: (id ++ strOf ".md")

/-- containsZ models Zettelkasten.contains (lines 132-133): the path derived
from the id exists in the file system. -/
def containsZ (st : Store) (fs : FSys) (id : Str) : Bool :=
  (dlookup (pathFor st id) fs).isSome

/-- saveZ models Zettelkasten.save (lines 143-145): encode the note and
write it at the path derived from its id, overwriting any existing file. -/
def saveZ (st : Store) (fs : FSys) (z : Zettel) : FSys :=
  dinsert fs (pathFor st z.id) (encodeZ z)

def notFoundMsg : Str :=
  strOf "ValueError: zettel with this ID does not exist in the zettelkasten"

/-- loadZ models Zettelkasten.load (lines 135-141): a not-found ValueError
when contains is false, else Zettel.load_from_file on the file at the
derived path, whose stem is the requested id. -/
def loadZ (st : Store) (fs : FSys) (id : Str) : Except Str Zettel :=
  match dlookup (pathFor st id) fs with
  | none => .error notFoundMsg
  | some raw => decodeText id raw

/-- refCharCode is the character class actually denoted by
ZETTEL_REF_PATTERN (zettel.py line 19): the pattern is written inside a
raw string with a doubled backslash, so the class holds a literal
backslash, the letter w and the hyphen, not the word characters. -/
def refCharCode (c : Char) : Bool := c = '\\' || c = 'w' || c = '-'

/-- refScanAux: left-to-right scanning state for re.findall of an at-sign
followed by a captured nonempty run of class characters. The state is
none outside a candidate match and some acc (reversed run so far) after
an at-sign; a run ends at the first character outside the class or at
the end, and is a match exactly when nonempty. The class never contains
the at-sign, so a character ending a run can itself start a new match. -/
def refScanAux (p : Char → Bool) : Option Str → Str → List Str
  | none, [] => []
  | some acc, [] => if acc.isEmpty then [] else [acc.reverse]
  | none, c :: rest =>
    if c = '@' then refScanAux p (some []) rest
    else refScanAux p none rest
  | some acc, c :: rest =>
    if p c then refScanAux p (some (c :: acc)) rest
    else if acc.isEmpty then
      if c = '@' then refScanAux p (some []) rest
      else refScanAux p none rest
    else
      acc.reverse :: (if c = '@' then refScanAux p (some []) rest
                      else refScanAux p none rest)

/-- findRefs models re.findall of an at-sign followed by a captured
nonempty run of class characters on one line: non-overlapping matches
left to right, each capture the maximal nonempty run after its at-sign,
scanning resuming after the run. -/
def findRefs (p : Char → Bool) (s : Str) : List Str := refScanAux p none s

/-- Modelled from the spec: the Reference Extractor (spec section 4.3),
which the repository declares only through the unused constant
ZETTEL_REF_PATTERN: scan every content line for citation tokens, an
at-sign followed by a word-or-hyphen run, and collect the captures as a
set (duplicates collapsed, order irrelevant). -/
def zettelRefs (z : Zettel) : List Str :=
  ((z.content.map (findRefs idChar)).flatten).dedup

/-- The Reference Extractor as the code's ZETTEL_REF_PATTERN would behave:
same scan, but over the class written in the source, backslash or the
letter w or the hyphen. -/
def zettelRefsCode (z : Zettel) : List Str :=
  ((z.content.map (findRefs refCharCode)).flatten).dedup

/-- A graph node keyed by note id, adjacency stored as id lists
(upstream: nodes citing this one; downstream: nodes this one cites). -/
structure GNode where
  id : Str
  upstream : List Str
  downstream : List Str
deriving DecidableEq

def storeIds (zs : List Zettel) : List Str := zs.map Zettel.id

/-- Modelled from the spec: downstream adjacency of the Reference Graph
Builder (spec section 4.4 step 3): extracted targets that exist in the
store gain an edge. -/
def downstreamOf (zs : List Zettel) (z : Zettel) : List Str :=
  (zettelRefs z).filter (fun t => decide (t ∈ storeIds zs))

/-- Modelled from the spec: upstream adjacency, the sources whose
extracted targets include this note (spec section 4.4 step 3). -/
def upstreamOf (zs : List Zettel) (z : Zettel) : List Str :=
  storeIds (zs.filter (fun src => decide (z.id ∈ zettelRefs src)))

def danglingWarning (src tgt : Str) : Str :=
  strOf "dangling reference: " ++ src ++ strOf " -> " ++ tgt

/-- Modelled from the spec: the dangling-reference warnings one note
contributes, one per extracted target absent from the store (spec
section 4.4 step 3). -/
def zettelWarnings (zs : List Zettel) (z : Zettel) : List Str :=
  ((zettelRefs z).filter (fun t => decide (t ∉ storeIds zs))).map (danglingWarning z.id)

/-- Modelled from the spec: the Reference Graph Builder build(store) (spec
section 4.4); Zettelkasten.graph in the code is an unimplemented stub
(zettel.py lines 173-175). The store is given as its list of decoded
notes (decode-failure warnings are outside this model) and the
designated root identifier; the result is the root node, with both
adjacency directions, and the accumulated warning strings. -/
def buildGraph (zs : List Zettel) (rootId : Str) : Option GNode × List Str :=
  ((zs.find? (fun z => decide (z.id = rootId))).map
     (fun z => GNode.mk z.id (upstreamOf zs z) (downstreamOf zs z)),
   (zs.map (zettelWarnings zs)).flatten)

/-- The git commands run by the Zettelkasten git helpers (zettel.py lines
147-167). -/
def gitStatusCmd : Str := strOf "git status --porcelain"

def gitAddCmd : Str := strOf "git add ."

def gitCommitCmd : Str := strOf "git commit -m updates"

def gitPullCmd : Str := strOf "git pull --rebase"

def gitPushCmd : Str := strOf "git push"

/-- The result of one shell command: panifex ShellReport reduced to the
two facts the code consults, success and captured output lines. -/
structure ShellRep where
  succeeded : Bool
  output : List Str
deriving DecidableEq

/-- pullPushRun models the tail of SyncAction (main.py lines 218-219):
fetch_and_rebase then push (zettel.py lines 159-167), each raising
ShellError on failure, which aborts the rest. Returns the commands run,
appended to the trace in order, and whether the run completed. -/
def pullPushRun (ex : Str → ShellRep) (trace : List Str) : List Str × Bool :=
  let t1 := trace ++ [gitPullCmd]
  if (ex gitPullCmd).succeeded then
    let t2 := t1 ++ [gitPushCmd]
    if (ex gitPushCmd).succeeded then (t2, true) else (t2, false)
  else (t1, false)

/-- syncRun models SyncAction (main.py lines 215-221) with has_changes and
commit_changes (zettel.py lines 147-157) inlined over an abstract
command executor: nonempty git status output decides whether to stage
and commit; a failing git add or git commit raises ShellError, aborting
the remaining steps. -/
def syncRun (ex : Str → ShellRep) : List Str × Bool :=
  let t0 := [gitStatusCmd]
  if (ex gitStatusCmd).output.length > 0 then
    let t1 := t0 ++ [gitAddCmd]
    if (ex gitAddCmd).succeeded then
      let t2 := t1 ++ [gitCommitCmd]
      if (ex gitCommitCmd).succeeded then pullPushRun ex t2
      else (t2, false)
    else (t1, false)
  else pullPushRun ex t0

/-! ### Dictionary lemmas -/

lemma dlookup_eq_none_iff (k : Str) (d : Dict) :
    dlookup k d = none ↔ ∀ p ∈ d, p.1 ≠ k := by
  induction d with
  | nil => simp [dlookup]
  | cons p rest ih =>
    by_cases h : p.1 = k
    · simp [dlookup, h]
    · simp [dlookup, h, ih]

lemma dlookup_append_none (k : Str) (d1 d2 : Dict) (h : dlookup k d1 = none) :
    dlookup k (d1 ++ d2) = dlookup k d2 := by
  induction d1 with
  | nil => simp
  | cons p rest ih =>
    by_cases hp : p.1 = k
    · simp [dlookup, hp] at h
    · simp only [dlookup, hp, if_false, List.cons_append] at h ⊢
      exact ih h

lemma dinsert_eq_append (d : Dict) (k v : Str) (h : dlookup k d = none) :
    dinsert d k v = d ++ [(k, v)] := by
  induction d with
  | nil => simp [dinsert]
  | cons p rest ih =>
    by_cases hp : p.1 = k
    · simp [dlookup, hp] at h
    · simp only [dlookup, hp, if_false] at h
      simp [dinsert, hp, ih h]

lemma foldl_dinsert_append (ps : Dict) (d : Dict)
    (hfresh : ∀ p ∈ ps, dlookup p.1 d = none)
    (hnd : (ps.map Prod.fst).Nodup) :
    ps.foldl (fun d p => dinsert d p.1 p.2) d = d ++ ps := by
  induction ps generalizing d with
  | nil => simp
  | cons p rest ih =>
    simp only [List.foldl_cons]
    rw [dinsert_eq_append d p.1 p.2 (hfresh p (by simp))]
    rw [ih (d ++ [(p.1, p.2)])]
    · simp
    · intro q hq
      rw [dlookup_append_none q.1 d _ (hfresh q (by simp [hq]))]
      simp only [List.map_cons, List.nodup_cons] at hnd
      have : q.1 ≠ p.1 := fun he => hnd.1 (he ▸ List.mem_map_of_mem Prod.fst hq)
      simp [dlookup, this.symm]
    · simp only [List.map_cons, List.nodup_cons] at hnd
      exact hnd.2

lemma dlookup_some_split (k v : Str) (d : Dict) (h : dlookup k d = some v) :
    ∃ pre post, d = pre ++ (k, v) :: post ∧ ∀ p ∈ pre, p.1 ≠ k := by
  induction d with
  | nil => simp [dlookup] at h
  | cons p rest ih =>
    by_cases hp : p.1 = k
    · simp only [dlookup, hp, if_true] at h
      refine ⟨[], rest, ?_, by simp⟩
      obtain ⟨p1, p2⟩ := p
      simp at hp h
      simp [hp, h]
    · simp only [dlookup, hp, if_false] at h
      obtain ⟨pre, post, hd, hpre⟩ := ih h
      exact ⟨p :: pre, post, by simp [hd], by
        intro q hq
        rcases List.mem_cons.mp hq with rfl | hq2
        · exact hp
        · exact hpre q hq2⟩

lemma derase_append (d1 d2 : Dict) (k : Str) :
    derase (d1 ++ d2) k = derase d1 k ++ derase d2 k := by
  induction d1 with
  | nil => simp [derase]
  | cons p rest ih =>
    by_cases hp : p.1 = k <;> simp [derase, hp, ih]

lemma derase_eq_self (d : Dict) (k : Str) (h : ∀ p ∈ d, p.1 ≠ k) :
    derase d k = d := by
  induction d with
  | nil => simp [derase]
  | cons p rest ih =>
    simp only [derase, h p (by simp), if_false]
    exact congrArg _ (ih fun q hq => h q (by simp [hq]))

lemma dlookup_derase_self (d : Dict) (k : Str) : dlookup k (derase d k) = none := by
  induction d with
  | nil => simp [derase, dlookup]
  | cons p rest ih =>
    by_cases hp : p.1 = k <;> simp [derase, dlookup, hp, ih]

lemma dlookup_dinsert_self (d : Dict) (k v : Str) :
    dlookup k (dinsert d k v) = some v := by
  induction d with
  | nil => simp [dinsert, dlookup]
  | cons p rest ih =>
    by_cases hp : p.1 = k <;> simp [dinsert, dlookup, hp, ih]

lemma dlookup_dinsert_ne (d : Dict) (k k2 v : Str) (h : k ≠ k2) :
    dlookup k (dinsert d k2 v) = dlookup k d := by
  have h2 : ¬ k2 = k := fun he => h he.symm
  induction d with
  | nil => simp [dinsert, dlookup, h2]
  | cons p rest ih =>
    by_cases hp : p.1 = k2
    · simp [dinsert, dlookup, hp, h2]
    · simp [dinsert, dlookup, hp, ih]

/-! ### Claim C2: identifier validation -/

/-- A nonempty run over the identifier charset (letters, digits,
underscore, hyphen): the shape the claim says is accepted. -/
def isIdRun (s : Str) : Prop := s ≠ [] ∧ ∀ ch ∈ s, idChar ch = true

lemma idRunB_iff (s : Str) : (!s.isEmpty && s.all idChar) = true ↔ isIdRun s := by
  cases s <;> simp [isIdRun, List.all_eq_true]

/-- re.match semantics of the id pattern: a nonempty id-charset run,
optionally followed by exactly one trailing newline. -/
lemma validIdMatch_iff (s : Str) :
    validIdMatch s = true ↔ isIdRun s ∨ ∃ w, isIdRun w ∧ s = w ++ ['\n'] := by
  by_cases h : s.getLast? = some '\n'
  · have hne : s ≠ [] := by intro he; rw [he] at h; simp at h
    have hg : s.getLast hne = '\n' := by
      have h2 := List.getLast?_eq_getLast s hne
      rw [h2] at h
      exact Option.some.inj h
    have hs : s = s.dropLast ++ ['\n'] := by
      have h3 := List.dropLast_append_getLast hne
      rw [hg] at h3
      exact h3.symm
    simp only [validIdMatch]
    rw [if_pos h, idRunB_iff]
    constructor
    · intro hrun
      exact Or.inr ⟨s.dropLast, hrun, hs⟩
    · rintro (⟨hne2, hall⟩ | ⟨w, hwrun, hw⟩)
      · exfalso
        have hmem : '\n' ∈ s := by rw [hs]; simp
        exact absurd (hall '\n' hmem) (by decide)
      · rw [hw, List.dropLast_concat]
        exact hwrun
  · simp only [validIdMatch]
    rw [if_neg h, idRunB_iff]
    constructor
    · exact Or.inl
    · rintro (hrun | ⟨w, hwrun, hw⟩)
      · exact hrun
      · exact absurd (hw ▸ List.getLast?_concat w) h

/-- Claim C2 (amended): constructing a Zettel succeeds exactly when the id
is a nonempty run over the identifier charset, optionally followed by one
trailing newline (Python re.match lets the dollar anchor match just
before a final newline); every other string is rejected with a
validation error. -/
theorem C2_id_validation (s : Str) :
    (∃ z, zettelNew s none none none = .ok z)
      ↔ isIdRun s ∨ ∃ w, isIdRun w ∧ s = w ++ ['\n'] := by
  rw [← validIdMatch_iff]
  constructor
  · rintro ⟨z, hz⟩
    by_cases h : validIdMatch s = true
    · exact h
    · simp [zettelNew, h] at hz
  · intro h
    refine ⟨⟨s, s, [], []⟩, ?_⟩
    simp [zettelNew, h]

/-- Claim C2 counterexample: the string "abc" followed by a newline is not
a run over the identifier charset, yet construction succeeds, refuting
"for every other string, construction fails". -/
theorem C2_counterexample :
    (∃ z, zettelNew (strOf "abc\n") none none none = .ok z)
      ∧ ¬ isIdRun (strOf "abc\n") :=
  ⟨⟨⟨strOf "abc\n", strOf "abc\n", [], []⟩, by decide⟩, by
    intro h
    exact absurd (h.2 '\n' (by decide)) (by decide)⟩

/-! ### Claim C4: reference extraction -/

def c4Note : Zettel :=
  ⟨strOf "a", strOf "a", [], [strOf "see @20200314-note for details\n"]⟩

def c4DupNote : Zettel := ⟨strOf "a", strOf "a", [], [strOf "@a @a @b\n"]⟩

def c4PlainNote : Zettel := ⟨strOf "a", strOf "a", [], [strOf "no tokens here\n"]⟩

/-- Claim C4: the extraction the code's ZETTEL_REF_PATTERN actually
denotes finds nothing on the claim's example lines (its class is
backslash, the letter w and the hyphen, so it cannot follow an at-sign
by a digit or most letters), while the extractor the spec describes
(word-or-hyphen run) yields exactly the claimed sets; the code pattern
does match w-and-hyphen runs, shown last. -/
theorem C4_ref_pattern_divergence :
    zettelRefsCode c4Note = []
    ∧ zettelRefs c4Note = [strOf "20200314-note"]
    ∧ zettelRefsCode c4DupNote = []
    ∧ zettelRefs c4DupNote = [strOf "a", strOf "b"]
    ∧ zettelRefs c4PlainNote = []
    ∧ zettelRefsCode c4PlainNote = []
    ∧ findRefs refCharCode (strOf "see @w-w for details") = [strOf "w-w"] := by
  decide

/-! ### Claim C7: store containment invariant -/

lemma pathFor_inj (st : Store) {a b : Str} (h : pathFor st a = pathFor st b) :
    a = b := by
  simp only [pathFor] at h
  have h2 := List.append_cancel_left h
  have h3 := List.cons.inj h2
  exact List.append_cancel_right h3.2

/-- Claim C7: contains is exactly existence of the file at the id-derived
path; it is false on an empty file system, true immediately after a save
of a note with that id, and unchanged by saves of notes with other ids,
so it stays false before any save for the id. -/
theorem C7_contains_invariant (st : Store) (fs : FSys) (z : Zettel) (id : Str)
    (hne : id ≠ z.id) :
    containsZ st fs id = (dlookup (pathFor st id) fs).isSome
    ∧ containsZ st [] id = false
    ∧ containsZ st (saveZ st fs z) z.id = true
    ∧ containsZ st (saveZ st fs z) id = containsZ st fs id := by
  refine ⟨rfl, rfl, ?_, ?_⟩
  · simp [containsZ, saveZ, dlookup_dinsert_self]
  · have hp : pathFor st id ≠ pathFor st z.id := fun h => hne (pathFor_inj st h)
    simp [containsZ, saveZ, dlookup_dinsert_ne _ _ _ _ hp]

def c7Store : Store := ⟨strOf "/home/user/zk"⟩

def c7Note : Zettel := ⟨strOf "b", strOf "b", [], [strOf "hello\n"]⟩

theorem C7_contains_invariant_witness :
    containsZ c7Store [] (strOf "a") = (dlookup (pathFor c7Store (strOf "a")) []).isSome
    ∧ containsZ c7Store [] (strOf "a") = false
    ∧ containsZ c7Store (saveZ c7Store [] c7Note) c7Note.id = true
    ∧ containsZ c7Store (saveZ c7Store [] c7Note) (strOf "a")
        = containsZ c7Store [] (strOf "a") :=
  C7_contains_invariant c7Store [] c7Note (strOf "a") (by decide)

/-! ### Claim C8: load error handling -/

/-- Claim C8: when contains is false, load fails with the not-found error
and returns no note at all; when the file is present, load returns
exactly the codec decode of the file text at the id-derived path. -/
theorem C8_load_contract (st : Store) (fs : FSys) (id : Str) :
    (containsZ st fs id = false → loadZ st fs id = .error notFoundMsg)
    ∧ ∀ raw, dlookup (pathFor st id) fs = some raw →
        loadZ st fs id = decodeText id raw := by
  constructor
  · intro h
    simp only [containsZ] at h
    cases hl : dlookup (pathFor st id) fs with
    | none => simp [loadZ, hl]
    | some raw => rw [hl] at h; simp at h
  · intro raw hraw
    simp [loadZ, hraw]

def c8Store : Store := ⟨strOf "/home/user/zk"⟩

theorem C8_load_contract_witness :
    (containsZ c8Store [] (strOf "a") = false →
      loadZ c8Store [] (strOf "a") = .error notFoundMsg)
    ∧ ∀ raw, dlookup (pathFor c8Store (strOf "a")) [] = some raw →
        loadZ c8Store [] (strOf "a") = decodeText (strOf "a") raw :=
  C8_load_contract c8Store [] (strOf "a")

/-! ### Claim C9: synchronizer sequencing -/

/-- Claim C9: a sync run with empty git status output never stages or
commits; a failing git add aborts commit, pull and push; a failing git
commit aborts pull and push; a failing git pull aborts push. -/
theorem C9_sync_sequencing (ex : Str → ShellRep) :
    ((ex gitStatusCmd).output = [] →
      gitAddCmd ∉ (syncRun ex).1 ∧ gitCommitCmd ∉ (syncRun ex).1)
    ∧ ((ex gitStatusCmd).output ≠ [] → (ex gitAddCmd).succeeded = false →
      gitCommitCmd ∉ (syncRun ex).1 ∧ gitPullCmd ∉ (syncRun ex).1
        ∧ gitPushCmd ∉ (syncRun ex).1)
    ∧ ((ex gitStatusCmd).output ≠ [] → (ex gitAddCmd).succeeded = true →
      (ex gitCommitCmd).succeeded = false →
      gitPullCmd ∉ (syncRun ex).1 ∧ gitPushCmd ∉ (syncRun ex).1)
    ∧ ((ex gitPullCmd).succeeded = false → gitPushCmd ∉ (syncRun ex).1) := by
  refine ⟨?_, ?_, ?_, ?_⟩
  · intro h
    have h1 : ¬ (ex gitStatusCmd).output.length > 0 := by simp [h]
    by_cases h4 : (ex gitPullCmd).succeeded = true <;>
      by_cases h5 : (ex gitPushCmd).succeeded = true <;>
        refine ⟨?_, ?_⟩ <;> simp [syncRun, pullPushRun, h1, h4, h5] <;> decide
  · intro h h2
    have h1 : (ex gitStatusCmd).output.length > 0 := List.length_pos.mpr h
    refine ⟨?_, ?_, ?_⟩ <;> simp [syncRun, pullPushRun, h1, h2] <;> decide
  · intro h h2 h3
    have h1 : (ex gitStatusCmd).output.length > 0 := List.length_pos.mpr h
    refine ⟨?_, ?_⟩ <;> simp [syncRun, pullPushRun, h1, h2, h3] <;> decide
  · intro h4
    by_cases h1 : (ex gitStatusCmd).output.length > 0 <;>
      by_cases h2 : (ex gitAddCmd).succeeded = true <;>
        by_cases h3 : (ex gitCommitCmd).succeeded = true <;>
          simp [syncRun, pullPushRun, h1, h2, h3, h4] <;> decide

def c9ExA : Str → ShellRep := fun _ => ⟨true, []⟩

def c9ExB : Str → ShellRep := fun c =>
  if c = gitAddCmd then ⟨false, [strOf "M x"]⟩ else ⟨true, [strOf "M x"]⟩

def c9ExC : Str → ShellRep := fun c =>
  if c = gitCommitCmd then ⟨false, [strOf "M x"]⟩ else ⟨true, [strOf "M x"]⟩

def c9ExD : Str → ShellRep := fun c =>
  if c = gitPullCmd then ⟨false, []⟩ else ⟨true, []⟩

theorem C9_sync_sequencing_witness :
    (gitAddCmd ∉ (syncRun c9ExA).1 ∧ gitCommitCmd ∉ (syncRun c9ExA).1)
    ∧ (gitCommitCmd ∉ (syncRun c9ExB).1 ∧ gitPullCmd ∉ (syncRun c9ExB).1
        ∧ gitPushCmd ∉ (syncRun c9ExB).1)
    ∧ (gitPullCmd ∉ (syncRun c9ExC).1 ∧ gitPushCmd ∉ (syncRun c9ExC).1)
    ∧ gitPushCmd ∉ (syncRun c9ExD).1 :=
  ⟨(C9_sync_sequencing c9ExA).1 rfl,
   (C9_sync_sequencing c9ExB).2.1 (by decide) (by decide),
   (C9_sync_sequencing c9ExC).2.2.1 (by decide) (by decide) (by decide),
   (C9_sync_sequencing c9ExD).2.2.2 (by decide)⟩

/-! ### Claim C10: a metadata title entry shadows the title field on encode -/

lemma mergedMeta_title_mem (z : Zettel) (v : Str)
    (hnd : (z.metadata.map Prod.fst).Nodup)
    (hv : dlookup titleKey z.metadata = some v) :
    mergedMeta z = (titleKey, v) :: derase z.metadata titleKey := by
  obtain ⟨pre, post, hd, hpre⟩ := dlookup_some_split titleKey v z.metadata hv
  have hnd2 := hnd
  rw [hd] at hnd2
  simp only [List.map_append, List.map_cons] at hnd2
  rw [List.nodup_append] at hnd2
  obtain ⟨hpreNd, hconsNd, hdisj⟩ := hnd2
  have htkPost : titleKey ∉ post.map Prod.fst := (List.nodup_cons.mp hconsNd).1
  have hpostNd : (post.map Prod.fst).Nodup := (List.nodup_cons.mp hconsNd).2
  have hpostNe : ∀ p ∈ post, p.1 ≠ titleKey := by
    intro p hp he
    exact htkPost (he ▸ List.mem_map_of_mem Prod.fst hp)
  rw [mergedMeta, hd, List.foldl_append, List.foldl_cons]
  rw [foldl_dinsert_append pre [(titleKey, z.title)]
        (by
          intro p hp
          rw [dlookup_eq_none_iff]
          rintro q hq
          simp only [List.mem_singleton] at hq
          subst hq
          exact fun he => hpre p hp he.symm)
        hpreNd]
  have hins : dinsert ([(titleKey, z.title)] ++ pre) titleKey v = (titleKey, v) :: pre := by
    simp [dinsert]
  rw [hins]
  rw [foldl_dinsert_append post ((titleKey, v) :: pre)
        (by
          intro p hp
          rw [dlookup_eq_none_iff]
          rintro q hq
          rcases List.mem_cons.mp hq with rfl | hq2
          · exact fun he => hpostNe p hp he.symm
          · exact fun he =>
              hdisj (List.mem_map_of_mem Prod.fst hq2)
                (he ▸ List.mem_cons_of_mem titleKey (List.mem_map_of_mem Prod.fst hp))
          )
        hpostNd]
  rw [derase_append, derase_eq_self pre titleKey hpre]
  simp [derase, derase_eq_self post titleKey hpostNe]

/-- Claim C10: when the metadata mapping itself holds the key title (a
state the constructor does not reject), encoding emits the metadata
entry's value on the leading title line — the spread metadata overwrites
the merged dict's position-zero title entry — and the note's title field
is not persisted at all: encodings for any two title field values agree. -/
theorem C10_metadata_title_shadows (z : Zettel) (v : Str)
    (hnd : (z.metadata.map Prod.fst).Nodup)
    (hv : dlookup titleKey z.metadata = some v) :
    encodeZ z = metaLine (titleKey, v)
        ++ (((derase z.metadata titleKey).map metaLine).flatten ++ z.content.flatten)
    ∧ ∀ t, encodeZ { z with title := t } = encodeZ z := by
  constructor
  · rw [encodeZ, mergedMeta_title_mem z v hnd hv]
    simp
  · intro t
    rw [encodeZ, encodeZ, mergedMeta_title_mem z v hnd hv,
        mergedMeta_title_mem { z with title := t } v hnd hv]

def c10Note : Zettel :=
  ⟨strOf "a", strOf "Mine", [(strOf "title", strOf "Shadow")], [strOf "body\n"]⟩

theorem C10_metadata_title_shadows_witness :
    encodeZ c10Note = metaLine (titleKey, strOf "Shadow")
        ++ (((derase c10Note.metadata titleKey).map metaLine).flatten
            ++ c10Note.content.flatten)
    ∧ ∀ t, encodeZ { c10Note with title := t } = encodeZ c10Note :=
  C10_metadata_title_shadows c10Note (strOf "Shadow") (by decide) (by decide)

/-! ### Claim C5: prefix-based metadata parsing -/

lemma parseMetaLoop_eq (md : Dict) (lines : List Str) :
    parseMetaLoop md lines
      = (List.foldl metaStep md (lines.takeWhile fun l => (matchMetadata l).isSome),
         lines.dropWhile fun l => (matchMetadata l).isSome) := by
  induction lines generalizing md with
  | nil => simp [parseMetaLoop]
  | cons l rest ih =>
    cases h : matchMetadata l with
    | none => simp [parseMetaLoop, h, metaStep]
    | some kv => simp [parseMetaLoop, h, metaStep, ih]

lemma flatten_splitLinesAux (s : Str) : ∀ acc : Str,
    (splitLinesAux acc s).flatten = acc.reverse ++ s := by
  induction s with
  | nil =>
    intro acc
    by_cases h : acc.isEmpty
    · have h2 : acc = [] := by simpa using h
      simp [splitLinesAux, h2]
    · simp [splitLinesAux, h]
  | cons c rest ih =>
    intro acc
    by_cases hc : c = '\n'
    · subst hc
      simp [splitLinesAux, ih]
    · simp [splitLinesAux, hc, ih]

lemma flatten_splitLines (s : Str) : (splitLines s).flatten = s := by
  simpa using flatten_splitLinesAux s []

lemma validIdMatch_ne_nil {s : Str} (h : validIdMatch s = true) : s ≠ [] :=
  fun he => absurd (he ▸ h) (by decide)

/-- Claim C5: decode turns exactly the maximal prefix of lines matching
the metadata pattern into the metadata dict (keys and values trimmed),
stops at the first non-matching line, and passes that line and every
later line through as content verbatim; in particular a file whose first
line does not match decodes to empty metadata with content equal to the
entire file as the text-mode read returns it (flattening the lines gives
back the whole translated text). -/
theorem C5_prefix_metadata (iid : Str) (lines : List Str)
    (hid : validIdMatch iid = true) :
    (parseMetaLoop [] lines
       = (List.foldl metaStep [] (lines.takeWhile fun l => (matchMetadata l).isSome),
          lines.dropWhile fun l => (matchMetadata l).isSome))
    ∧ (∀ l0 rest, lines = l0 :: rest → matchMetadata l0 = none →
        decodeLines iid lines = .ok ⟨iid, iid, [], lines⟩)
    ∧ (∀ raw, splitLines (translateNewlines raw) = lines →
        decodeText iid raw = decodeLines iid lines
          ∧ lines.flatten = translateNewlines raw) := by
  refine ⟨parseMetaLoop_eq [] lines, ?_, ?_⟩
  · rintro l0 rest rfl h0
    simp [decodeLines, hid, parseMetaLoop, h0, dlookup, zettelNew]
  · intro raw hraw
    exact ⟨by rw [decodeText, hraw], by rw [← hraw, flatten_splitLines]⟩

theorem C5_prefix_metadata_witness :
    (parseMetaLoop [] [strOf "hello\n"]
       = (List.foldl metaStep []
            (List.takeWhile (fun l => (matchMetadata l).isSome) [strOf "hello\n"]),
          List.dropWhile (fun l => (matchMetadata l).isSome) [strOf "hello\n"]))
    ∧ (∀ l0 rest, [strOf "hello\n"] = l0 :: rest → matchMetadata l0 = none →
        decodeLines (strOf "abc") [strOf "hello\n"]
          = .ok ⟨strOf "abc", strOf "abc", [], [strOf "hello\n"]⟩)
    ∧ (∀ raw, splitLines (translateNewlines raw) = [strOf "hello\n"] →
        decodeText (strOf "abc") raw = decodeLines (strOf "abc") [strOf "hello\n"]
          ∧ [strOf "hello\n"].flatten = translateNewlines raw) :=
  C5_prefix_metadata (strOf "abc") [strOf "hello\n"] (by decide)

/-! ### Claim C6: title extraction on decode -/

/-- Claim C6 (amended): if the parsed metadata prefix holds the key
title, the decoded title is that entry's value when the value is
nonempty — an empty value falls back to the inferred id through the
constructor's falsy-title coercion — and the key is absent from the
decoded metadata; if no title line was parsed, the decoded title is the
inferred id. -/
theorem C6_title_extraction (iid : Str) (lines : List Str) (md : Dict)
    (c : List Str) (hid : validIdMatch iid = true)
    (hp : parseMetaLoop [] lines = (md, c)) :
    (dlookup titleKey md = none → decodeLines iid lines = .ok ⟨iid, iid, md, c⟩)
    ∧ (∀ v, dlookup titleKey md = some v → v ≠ [] →
        decodeLines iid lines = .ok ⟨iid, v, derase md titleKey, c⟩
          ∧ dlookup titleKey (derase md titleKey) = none)
    ∧ (∀ v, dlookup titleKey md = some v → v = [] →
        decodeLines iid lines = .ok ⟨iid, iid, derase md titleKey, c⟩) := by
  refine ⟨?_, ?_, ?_⟩
  · intro hl
    simp [decodeLines, hid, hp, hl, zettelNew]
  · intro v hl hv
    have hvE : v.isEmpty = false := by
      cases v with
      | nil => exact absurd rfl hv
      | cons a t => rfl
    exact ⟨by simp [decodeLines, hid, hp, hl, zettelNew, hvE],
      dlookup_derase_self md titleKey⟩
  · rintro v hl rfl
    simp [decodeLines, hid, hp, hl, zettelNew]

/-- Claim C6 counterexample: the file consisting of the single line
"title:" with a newline parses a title entry with empty value, yet the
decoded title is the inferred id "abc", not that value, refuting "the
decoded note's title is that key's value". -/
theorem C6_counterexample :
    parseMetaLoop [] (splitLines (strOf "title:\n")) = ([(titleKey, [])], [])
    ∧ decodeText (strOf "abc") (strOf "title:\n")
        = .ok ⟨strOf "abc", strOf "abc", [], []⟩
    ∧ (strOf "abc" : Str) ≠ [] := by decide

theorem C6_title_extraction_witness :
    (dlookup titleKey [(titleKey, strOf "Foo")] = none →
      decodeLines (strOf "abc") [strOf "title: Foo\n"]
        = .ok ⟨strOf "abc", strOf "abc", [(titleKey, strOf "Foo")], []⟩)
    ∧ (∀ v, dlookup titleKey [(titleKey, strOf "Foo")] = some v → v ≠ [] →
        decodeLines (strOf "abc") [strOf "title: Foo\n"]
          = .ok ⟨strOf "abc", v, derase [(titleKey, strOf "Foo")] titleKey, []⟩
          ∧ dlookup titleKey (derase [(titleKey, strOf "Foo")] titleKey) = none)
    ∧ (∀ v, dlookup titleKey [(titleKey, strOf "Foo")] = some v → v = [] →
        decodeLines (strOf "abc") [strOf "title: Foo\n"]
          = .ok ⟨strOf "abc", strOf "abc", derase [(titleKey, strOf "Foo")] titleKey, []⟩) :=
  C6_title_extraction (strOf "abc") [strOf "title: Foo\n"]
    [(titleKey, strOf "Foo")] [] (by decide) (by decide)

/-! ### Claim C3: reference graph build (modelled from the spec) -/

def c3A : Zettel := ⟨strOf "a", strOf "a", [], [strOf "see @b\n"]⟩

def c3B : Zettel := ⟨strOf "b", strOf "b", [], [strOf "cites @c\n"]⟩

def c3C : Zettel := ⟨strOf "c", strOf "c", [], [strOf "no references\n"]⟩

def c3Store : List Zettel := [c3A, c3B, c3C]

def c3Ghost : Zettel := ⟨strOf "a", strOf "a", [], [strOf "see @ghost\n"]⟩

/-- Claim C3: build returns the pair of the designated root node and the
warning strings; on the three-note store where A cites B, B cites C and
C cites nothing, adjacency is exactly A downstream B, B upstream A, B
downstream C, C upstream B, C downstream empty, with zero warnings; and
a note citing a nonexistent id contributes a dangling-reference warning
and no edge — shown concretely for the id "ghost" and in general for
every store, citing note and absent target. -/
theorem C3_graph_build :
    buildGraph c3Store (strOf "a")
      = (some ⟨strOf "a", [], [strOf "b"]⟩, [])
    ∧ upstreamOf c3Store c3A = []
    ∧ downstreamOf c3Store c3A = [strOf "b"]
    ∧ upstreamOf c3Store c3B = [strOf "a"]
    ∧ downstreamOf c3Store c3B = [strOf "c"]
    ∧ upstreamOf c3Store c3C = [strOf "b"]
    ∧ downstreamOf c3Store c3C = []
    ∧ buildGraph [c3Ghost] (strOf "a")
        = (some ⟨strOf "a", [], []⟩, [danglingWarning (strOf "a") (strOf "ghost")])
    ∧ ∀ (zs : List Zettel) (z : Zettel) (t r : Str), z ∈ zs → t ∈ zettelRefs z →
        t ∉ storeIds zs →
        danglingWarning z.id t ∈ (buildGraph zs r).2 ∧ t ∉ downstreamOf zs z := by
  refine ⟨by decide, by decide, by decide, by decide, by decide, by decide, by decide,
    by decide, ?_⟩
  intro zs z t r hz ht hnot
  constructor
  · simp only [buildGraph]
    rw [List.mem_flatten]
    refine ⟨zettelWarnings zs z, List.mem_map_of_mem _ hz, ?_⟩
    simp only [zettelWarnings]
    exact List.mem_map_of_mem _ (List.mem_filter.mpr ⟨ht, by simp [hnot]⟩)
  · intro hmem
    rw [downstreamOf, List.mem_filter] at hmem
    exact hnot (by simpa using hmem.2)

/-! ### Claim C1: encode/decode round-trip

The shapes under which the round-trip is exact: a nonempty
whitespace-trimmed newline-free title, uniquely keyed metadata whose
keys are id-charset runs other than "title" and whose values are trimmed
and newline-free, and content lines each carrying exactly one newline at
their end (the final line may instead be a nonempty newline-free
fragment) whose first line does not parse as a metadata line. -/

/-- A line as Python file iteration yields it mid-file: a newline at the
end and nowhere else. -/
def properLine (l : Str) : Prop := l.getLast? = some '\n' ∧ '\n' ∉ l.dropLast

instance (l : Str) : Decidable (properLine l) :=
  inferInstanceAs (Decidable (l.getLast? = some '\n' ∧ '\n' ∉ l.dropLast))

def linesOK (c : List Str) : Prop :=
  (∀ l ∈ c.dropLast, properLine l)
  ∧ ∀ l ∈ c.getLast?.toList, properLine l ∨ ('\n' ∉ l ∧ l ≠ [])

instance (c : List Str) : Decidable (linesOK c) :=
  inferInstanceAs (Decidable ((∀ l ∈ c.dropLast, properLine l)
    ∧ ∀ l ∈ c.getLast?.toList, properLine l ∨ ('\n' ∉ l ∧ l ≠ [])))

def keyOK (k : Str) : Prop :=
  k ≠ [] ∧ (∀ ch ∈ k, idChar ch = true) ∧ k ≠ titleKey

instance (k : Str) : Decidable (keyOK k) :=
  inferInstanceAs (Decidable (k ≠ [] ∧ (∀ ch ∈ k, idChar ch = true) ∧ k ≠ titleKey))

def valOK (v : Str) : Prop := '\n' ∉ v ∧ '\r' ∉ v ∧ strip v = v

instance (v : Str) : Decidable (valOK v) :=
  inferInstanceAs (Decidable ('\n' ∉ v ∧ '\r' ∉ v ∧ strip v = v))

def titleOK (t : Str) : Prop := t ≠ [] ∧ '\n' ∉ t ∧ '\r' ∉ t ∧ strip t = t

instance (t : Str) : Decidable (titleOK t) :=
  inferInstanceAs (Decidable (t ≠ [] ∧ '\n' ∉ t ∧ '\r' ∉ t ∧ strip t = t))

def metadataOK (d : Dict) : Prop :=
  (d.map Prod.fst).Nodup ∧ ∀ p ∈ d, keyOK p.1 ∧ valOK p.2

instance (d : Dict) : Decidable (metadataOK d) :=
  inferInstanceAs (Decidable ((d.map Prod.fst).Nodup ∧ ∀ p ∈ d, keyOK p.1 ∧ valOK p.2))

def contentOK (c : List Str) : Prop :=
  linesOK c ∧ (∀ l ∈ c, '\r' ∉ l)
    ∧ ∀ l ∈ c.head?.toList, matchMetadata l = none

instance (c : List Str) : Decidable (contentOK c) :=
  inferInstanceAs (Decidable (linesOK c ∧ (∀ l ∈ c, '\r' ∉ l)
    ∧ ∀ l ∈ c.head?.toList, matchMetadata l = none))

lemma idChar_not_newline {k : Str} (hkc : ∀ ch ∈ k, idChar ch = true) :
    '\n' ∉ k :=
  fun hmem => absurd (hkc '\n' hmem) (by decide)

lemma idChar_not_cr {k : Str} (hkc : ∀ ch ∈ k, idChar ch = true) :
    '\r' ∉ k :=
  fun hmem => absurd (hkc '\r' hmem) (by decide)

lemma dropWhile_eq_self_of_none (p : Char → Bool) (l : Str)
    (h : ∀ c ∈ l, p c = false) : l.dropWhile p = l := by
  cases l with
  | nil => rfl
  | cons c rest => simp [List.dropWhile_cons, h c (List.mem_cons_self c rest)]

lemma idChar_not_space {c : Char} (h : idChar c = true) : isSpaceChar c = false := by
  cases hs : isSpaceChar c
  · rfl
  · exfalso
    simp [isSpaceChar] at hs
    rcases hs with ((((((((rfl | rfl) | rfl) | rfl) | rfl) | rfl) | rfl) | rfl) | rfl) | rfl <;>
      exact absurd h (by decide)

lemma strip_eq_self_of_idChars (k : Str) (h : ∀ ch ∈ k, idChar ch = true) :
    strip k = k := by
  have h1 : ∀ c ∈ k, isSpaceChar c = false := fun c hc => idChar_not_space (h c hc)
  rw [strip, dropWhile_eq_self_of_none _ _ h1,
      dropWhile_eq_self_of_none _ _ (fun c hc => h1 c (List.mem_reverse.mp hc)),
      List.reverse_reverse]

lemma strip_cons_space (v : Str) : strip (' ' :: v) = strip v := by
  have h : List.dropWhile isSpaceChar (' ' :: v) = List.dropWhile isSpaceChar v := by
    rw [List.dropWhile_cons, if_pos (by decide)]
  rw [strip, strip, h]

lemma takeWhile_append_all (p : Char → Bool) (l r : Str)
    (h : ∀ c ∈ l, p c = true) : (l ++ r).takeWhile p = l ++ r.takeWhile p := by
  induction l with
  | nil => simp
  | cons c rest ih =>
    simp [List.takeWhile_cons, h c (List.mem_cons_self c rest),
      ih fun d hd => h d (List.mem_cons_of_mem c hd)]

lemma dropWhile_append_all (p : Char → Bool) (l r : Str)
    (h : ∀ c ∈ l, p c = true) : (l ++ r).dropWhile p = r.dropWhile p := by
  induction l with
  | nil => simp
  | cons c rest ih =>
    simp [List.dropWhile_cons, h c (List.mem_cons_self c rest),
      ih fun d hd => h d (List.mem_cons_of_mem c hd)]

lemma metaLine_concat (k v : Str) :
    metaLine (k, v) = (k ++ ':' :: ' ' :: v) ++ ['\n'] := by
  simp [metaLine]

lemma newline_not_mem_core (k v : Str) (hknl : '\n' ∉ k) (hvnl : '\n' ∉ v) :
    '\n' ∉ k ++ ':' :: ' ' :: v := by
  intro hmem
  rcases List.mem_append.mp hmem with hmk | hmr
  · exact hknl hmk
  · simp only [List.mem_cons] at hmr
    rcases hmr with h1 | h1 | h1
    · exact absurd h1 (by decide)
    · exact absurd h1 (by decide)
    · exact hvnl h1

lemma properLine_metaLine (k v : Str) (hknl : '\n' ∉ k) (hvnl : '\n' ∉ v) :
    properLine (metaLine (k, v)) := by
  constructor
  · rw [metaLine_concat]
    exact List.getLast?_concat _
  · rw [metaLine_concat, List.dropLast_concat]
    exact newline_not_mem_core k v hknl hvnl

lemma cr_not_mem_metaLine (k v : Str) (hk : '\r' ∉ k) (hv : '\r' ∉ v) :
    '\r' ∉ metaLine (k, v) := by
  rw [metaLine_concat]
  intro hmem
  rcases List.mem_append.mp hmem with h1 | h1
  · rcases List.mem_append.mp h1 with h2 | h2
    · exact hk h2
    · simp only [List.mem_cons] at h2
      rcases h2 with h3 | h3 | h3
      · exact absurd h3 (by decide)
      · exact absurd h3 (by decide)
      · exact hv h3
  · simp only [List.mem_singleton] at h1
    exact absurd h1 (by decide)

lemma translateNewlines_eq_self : ∀ s : Str, '\r' ∉ s → translateNewlines s = s := by
  intro s
  induction s with
  | nil => intro _; rfl
  | cons c rest ih =>
    intro h
    have hc : ¬ c = '\r' := fun he => h (by rw [he]; exact List.mem_cons_self _ _)
    cases rest with
    | nil => simp [translateNewlines, hc]
    | cons d rest2 =>
      simp only [translateNewlines, hc, if_false]
      exact congrArg (List.cons c) (ih fun hm => h (List.mem_cons_of_mem c hm))

lemma matchMetadata_metaLine (k v : Str) (hk : k ≠ [])
    (hkc : ∀ ch ∈ k, idChar ch = true) (hv : '\n' ∉ v) :
    matchMetadata (metaLine (k, v)) = some (k, ' ' :: v) := by
  have h1 : (metaLine (k, v)).getLast? = some '\n' := by
    rw [metaLine_concat]
    exact List.getLast?_concat _
  have h2 : (metaLine (k, v)).dropLast = k ++ ':' :: ' ' :: v := by
    rw [metaLine_concat, List.dropLast_concat]
  have h3 := newline_not_mem_core k v (idChar_not_newline hkc) hv
  have ht : List.takeWhile idChar (':' :: ' ' :: v) = [] := by
    rw [List.takeWhile_cons, if_neg (by decide)]
  have hd : List.dropWhile idChar (':' :: ' ' :: v) = ':' :: ' ' :: v := by
    rw [List.dropWhile_cons, if_neg (by decide)]
  have hkE : k.isEmpty = false := by
    cases k with
    | nil => exact absurd rfl hk
    | cons a t => rfl
  simp only [matchMetadata]
  rw [if_pos h1, h2, if_neg h3,
      takeWhile_append_all idChar k (':' :: ' ' :: v) hkc,
      dropWhile_append_all idChar k (':' :: ' ' :: v) hkc,
      ht, hd, List.append_nil, hkE]
  simp

lemma parseMetaLoop_metaLines (ps : Dict) (rest : List Str) : ∀ md : Dict,
    (∀ p ∈ ps, dlookup p.1 md = none) →
    (ps.map Prod.fst).Nodup →
    (∀ p ∈ ps, p.1 ≠ [] ∧ (∀ ch ∈ p.1, idChar ch = true)
      ∧ '\n' ∉ p.2 ∧ strip p.2 = p.2) →
    parseMetaLoop md (ps.map metaLine ++ rest) = parseMetaLoop (md ++ ps) rest := by
  induction ps with
  | nil => intro md _ _ _; simp
  | cons p ps ih =>
    obtain ⟨k, v⟩ := p
    intro md hfresh hnd hok
    obtain ⟨hk1, hk2, hv1, hv2⟩ := hok (k, v) (List.mem_cons_self _ _)
    have hm : matchMetadata (metaLine (k, v)) = some (k, ' ' :: v) :=
      matchMetadata_metaLine k v hk1 hk2 hv1
    simp only [List.map_cons, List.cons_append, parseMetaLoop, hm]
    rw [strip_eq_self_of_idChars k hk2, strip_cons_space, hv2,
        dinsert_eq_append md k v (hfresh (k, v) (List.mem_cons_self _ _))]
    show parseMetaLoop (md ++ [(k, v)]) (List.map metaLine ps ++ rest)
        = parseMetaLoop (md ++ (k, v) :: ps) rest
    rw [ih (md ++ [(k, v)])]
    · simp
    · intro q hq
      rw [dlookup_append_none q.1 md _ (hfresh q (List.mem_cons_of_mem _ hq))]
      rw [dlookup_eq_none_iff]
      rintro r hr
      simp only [List.mem_singleton] at hr
      subst hr
      simp only [List.map_cons, List.nodup_cons] at hnd
      intro he
      simp only at he
      exact hnd.1 (by rw [he]; exact List.mem_map_of_mem Prod.fst hq)
    · simp only [List.map_cons, List.nodup_cons] at hnd
      exact hnd.2
    · exact fun q hq => hok q (List.mem_cons_of_mem _ hq)

lemma splitLinesAux_newline : ∀ body : Str, '\n' ∉ body → ∀ acc s : Str,
    splitLinesAux acc (body ++ '\n' :: s)
      = (acc.reverse ++ body ++ ['\n']) :: splitLines s := by
  intro body
  induction body with
  | nil => intro _ acc s; simp [splitLinesAux, splitLines]
  | cons c cs ih =>
    intro hb acc s
    have hc : ¬ c = '\n' := fun he => hb (by rw [he]; exact List.mem_cons_self _ _)
    simp only [List.cons_append, splitLinesAux, hc, if_false]
    show splitLinesAux (c :: acc) (cs ++ '\n' :: s)
        = (acc.reverse ++ c :: cs ++ ['\n']) :: splitLines s
    rw [ih (fun hm => hb (List.mem_cons_of_mem c hm)) (c :: acc) s]
    simp

lemma splitLinesAux_last : ∀ body : Str, '\n' ∉ body → body ≠ [] → ∀ acc : Str,
    splitLinesAux acc body = [acc.reverse ++ body] := by
  intro body
  induction body with
  | nil => intro _ h _; exact absurd rfl h
  | cons c cs ih =>
    intro hb _ acc
    have hc : ¬ c = '\n' := fun he => hb (by rw [he]; exact List.mem_cons_self _ _)
    simp only [splitLinesAux, hc, if_false]
    cases cs with
    | nil => simp [splitLinesAux]
    | cons d ds =>
      rw [ih (fun hm => hb (List.mem_cons_of_mem c hm)) (by simp) (c :: acc)]
      simp

lemma properLine_decomp {l : Str} (h : properLine l) :
    l = l.dropLast ++ ['\n'] ∧ '\n' ∉ l.dropLast := by
  obtain ⟨h1, h2⟩ := h
  have hne : l ≠ [] := by intro he; rw [he] at h1; simp at h1
  have hg : l.getLast hne = '\n' := by
    have h3 := List.getLast?_eq_getLast l hne
    rw [h3] at h1
    exact Option.some.inj h1
  refine ⟨?_, h2⟩
  have h4 := List.dropLast_append_getLast hne
  rw [hg] at h4
  exact h4.symm

lemma splitLines_flatten_proper : ∀ ls : List Str, (∀ l ∈ ls, properLine l) →
    ∀ s : Str, splitLines (ls.flatten ++ s) = ls ++ splitLines s := by
  intro ls
  induction ls with
  | nil => intro _ s; simp
  | cons l t ih =>
    intro h s
    obtain ⟨hl, hnl⟩ := properLine_decomp (h l (List.mem_cons_self _ _))
    obtain ⟨b, hbl, hbn⟩ : ∃ b, l = b ++ ['\n'] ∧ '\n' ∉ b := ⟨l.dropLast, hl, hnl⟩
    have he : (l :: t).flatten ++ s = b ++ '\n' :: (t.flatten ++ s) := by
      rw [List.flatten_cons, hbl]
      simp
    have h2 : splitLines (b ++ '\n' :: (t.flatten ++ s))
        = (b ++ ['\n']) :: splitLines (t.flatten ++ s) := by
      unfold splitLines
      rw [splitLinesAux_newline b hbn [] (t.flatten ++ s)]
      simp [splitLines]
    rw [he, h2, ← hbl, ih (fun x hx => h x (List.mem_cons_of_mem l hx)) s]
    rfl

lemma splitLines_flatten_linesOK : ∀ c : List Str, linesOK c →
    splitLines c.flatten = c := by
  intro c
  induction c with
  | nil => intro _; rfl
  | cons l t ih =>
    intro h
    cases t with
    | nil =>
      have hlast := h.2 l (by simp)
      rcases hlast with hp | ⟨hn, hne⟩
      · obtain ⟨hl, hnl⟩ := properLine_decomp hp
        obtain ⟨b, hbl, hbn⟩ : ∃ b, l = b ++ ['\n'] ∧ '\n' ∉ b := ⟨l.dropLast, hl, hnl⟩
        have he : ([l] : List Str).flatten = b ++ '\n' :: [] := by simp [hbl]
        rw [he]
        unfold splitLines
        rw [splitLinesAux_newline b hbn [] []]
        simp [splitLines, splitLinesAux, hbl]
      · have he : ([l] : List Str).flatten = l := by simp
        rw [he]
        unfold splitLines
        rw [splitLinesAux_last l hn hne []]
        simp
    | cons m ts =>
      have hp : properLine l := h.1 l (by
        show l ∈ (l :: m :: ts).dropLast
        show l ∈ l :: (m :: ts).dropLast
        exact List.mem_cons_self _ _)
      have ht : linesOK (m :: ts) := by
        constructor
        · intro x hx
          refine h.1 x ?_
          show x ∈ l :: (m :: ts).dropLast
          exact List.mem_cons_of_mem l hx
        · intro x hx
          refine h.2 x ?_
          rw [List.getLast?_cons_cons]
          exact hx
      obtain ⟨hl, hnl⟩ := properLine_decomp hp
      obtain ⟨b, hbl, hbn⟩ : ∃ b, l = b ++ ['\n'] ∧ '\n' ∉ b := ⟨l.dropLast, hl, hnl⟩
      have he : (l :: m :: ts).flatten = b ++ '\n' :: (m :: ts).flatten := by
        rw [List.flatten_cons, hbl]
        simp
      rw [he]
      unfold splitLines
      rw [splitLinesAux_newline b hbn [] ((m :: ts).flatten)]
      rw [ih ht]
      simp [hbl]

/-- Claim C1 (amended): decode(encode(n), n.id) yields n back exactly —
same title, metadata and content — for every note whose id is valid,
whose title is nonempty, free of newlines and carriage returns and equal
to its own trim, whose metadata has distinct keys that are id-charset
runs other than "title" and trimmed values free of newlines and carriage
returns, and whose content lines are proper carriage-return-free file
lines (one trailing newline each, the final line may be a nonempty bare
fragment) with a first line that does not parse as a metadata line.
Outside these shapes the round-trip can fail (see the counterexample). -/
theorem C1_roundtrip (n : Zettel) (hid : validIdMatch n.id = true)
    (ht : titleOK n.title) (hm : metadataOK n.metadata) (hc : contentOK n.content) :
    decodeText n.id (encodeZ n) = .ok n := by
  obtain ⟨id, t, meta, cont⟩ := n
  simp only at hid ht hm hc
  obtain ⟨htne, htnl, htcr, hts⟩ := ht
  obtain ⟨hmnd, hmok⟩ := hm
  obtain ⟨hcok, hccr, hchead⟩ := hc
  have hfresh1 : ∀ p ∈ meta, dlookup p.1 [(titleKey, t)] = none := by
    intro p hp
    rw [dlookup_eq_none_iff]
    rintro q hq
    simp only [List.mem_singleton] at hq
    subst hq
    exact fun he => (hmok p hp).1.2.2 he.symm
  have hA : mergedMeta ⟨id, t, meta, cont⟩ = (titleKey, t) :: meta := by
    have h0 := foldl_dinsert_append meta [(titleKey, t)] hfresh1 hmnd
    simpa [mergedMeta] using h0
  have hproper : ∀ l ∈ ((titleKey, t) :: meta).map metaLine, properLine l := by
    intro l hl
    rw [List.mem_map] at hl
    obtain ⟨p, hp, rfl⟩ := hl
    rcases List.mem_cons.mp hp with heq | hp2
    · subst heq
      exact properLine_metaLine titleKey t (by decide) htnl
    · obtain ⟨k, v⟩ := p
      exact properLine_metaLine k v
        (idChar_not_newline (hmok (k, v) hp2).1.2.1) (hmok (k, v) hp2).2.1
  have hsplit : splitLines (encodeZ ⟨id, t, meta, cont⟩)
      = ((titleKey, t) :: meta).map metaLine ++ cont := by
    show splitLines (((mergedMeta ⟨id, t, meta, cont⟩).map metaLine).flatten
        ++ cont.flatten) = _
    rw [hA, splitLines_flatten_proper (((titleKey, t) :: meta).map metaLine)
          hproper cont.flatten,
        splitLines_flatten_linesOK cont hcok]
  have hfresh2 : ∀ p ∈ (titleKey, t) :: meta, dlookup p.1 ([] : Dict) = none :=
    fun p _ => rfl
  have hnd2 : (((titleKey, t) :: meta).map Prod.fst).Nodup := by
    simp only [List.map_cons, List.nodup_cons]
    constructor
    · intro hmem
      rw [List.mem_map] at hmem
      obtain ⟨p, hp, he⟩ := hmem
      exact (hmok p hp).1.2.2 he
    · exact hmnd
  have hok2 : ∀ p ∈ (titleKey, t) :: meta, p.1 ≠ [] ∧ (∀ ch ∈ p.1, idChar ch = true)
      ∧ '\n' ∉ p.2 ∧ strip p.2 = p.2 := by
    intro p hp
    rcases List.mem_cons.mp hp with heq | hp2
    · subst heq
      exact ⟨(by decide : titleKey ≠ []),
        (by decide : ∀ ch ∈ titleKey, idChar ch = true), htnl, hts⟩
    · exact ⟨(hmok p hp2).1.1, (hmok p hp2).1.2.1,
        (hmok p hp2).2.1, (hmok p hp2).2.2.2⟩
  have hparse := parseMetaLoop_metaLines ((titleKey, t) :: meta) cont []
    hfresh2 hnd2 hok2
  have hE : parseMetaLoop ((titleKey, t) :: meta) cont
      = ((titleKey, t) :: meta, cont) := by
    cases cont with
    | nil => rfl
    | cons l0 ls =>
      have h0 : matchMetadata l0 = none := hchead l0 (by simp)
      simp [parseMetaLoop, h0]
  have hder : derase ((titleKey, t) :: meta) titleKey = meta := by
    simp only [derase, if_pos rfl]
    exact derase_eq_self meta titleKey (fun p hp => (hmok p hp).1.2.2)
  have hnoCR : '\r' ∉ encodeZ ⟨id, t, meta, cont⟩ := by
    show '\r' ∉ ((mergedMeta ⟨id, t, meta, cont⟩).map metaLine).flatten ++ cont.flatten
    rw [hA]
    intro hmem
    rcases List.mem_append.mp hmem with h1 | h1
    · rw [List.mem_flatten] at h1
      obtain ⟨l, hl, hmem2⟩ := h1
      rw [List.mem_map] at hl
      obtain ⟨p, hp, rfl⟩ := hl
      rcases List.mem_cons.mp hp with heq | hp2
      · subst heq
        exact cr_not_mem_metaLine titleKey t (by decide) htcr hmem2
      · obtain ⟨k, v⟩ := p
        exact cr_not_mem_metaLine k v (idChar_not_cr (hmok (k, v) hp2).1.2.1)
          (hmok (k, v) hp2).2.2.1 hmem2
    · rw [List.mem_flatten] at h1
      obtain ⟨l, hl, hmem2⟩ := h1
      exact hccr l hl hmem2
  simp only [List.map_cons, List.cons_append, List.nil_append] at hparse
  rw [decodeText, translateNewlines_eq_self _ hnoCR, hsplit]
  simp [decodeLines, hid, hparse, hE, hder, dlookup, zettelNew, htne]

def c1BadNote : Zettel := ⟨strOf "a", strOf "a", [], [strOf "x: y\n"]⟩

/-- Claim C1 counterexample: the note with id "a", defaulted title and
metadata, and the single content line "x: y" — constructible exactly so
through the constructor — re-decodes with that line absorbed into
metadata and with empty content, so decode(encode(n), n.id) differs from
n in metadata and in content. -/
theorem C1_counterexample :
    zettelNew (strOf "a") none none (some [strOf "x: y\n"]) = .ok c1BadNote
    ∧ decodeText (strOf "a") (encodeZ c1BadNote)
        = .ok ⟨strOf "a", strOf "a", [(strOf "x", strOf "y")], []⟩
    ∧ ¬ ([(strOf "x", strOf "y")] : Dict) = c1BadNote.metadata
    ∧ ¬ ([] : List Str) = c1BadNote.content := by decide

def c1GoodNote : Zettel :=
  ⟨strOf "note1", strOf "My Title",
   [(strOf "k", strOf "v"), (strOf "k-2", strOf "a: b")],
   [strOf "hello @b\n", strOf "\n", strOf "world"]⟩

theorem C1_roundtrip_witness :
    decodeText c1GoodNote.id (encodeZ c1GoodNote) = .ok c1GoodNote :=
  C1_roundtrip c1GoodNote (by decide) (by decide) (by decide) (by decide)

